import Mathlib

/-!
Verification development for the nellie tracking core
(`src_2/tracking/flow_interpolation.py`, `src_2/tracking/voxel_reassignment.py`,
`src_2/tracking/hu.py`, `src/pipeline/node_tracking.py`).

The Python code is shallowly embedded: numpy float arrays become lists of
rationals (`ℚ`), with an explicit IEEE-like value type `FVal` (NaN / ±inf /
finite) where NaN and infinity sentinels matter; stateful objects become
explicit state records with step functions.  `np.sqrt` is embedded by
`ratSqrt`, which is exact on perfect-square rationals; every concrete input
evaluated in a theorem below only takes square roots of perfect squares.
-/

namespace Nellie

set_option maxRecDepth 10000

set_option allowUnsafeReducibility true

/- Core marks the rational-arithmetic primitives `@[irreducible]`, which
blocks `decide` on the concrete program evaluations below; the kernel
reduces them regardless, so unsealing them locally is sound. -/
attribute [local semireducible] Rat.add Rat.mul Rat.inv Rat.sub Rat.neg

/-- A 3-D coordinate (z, y, x), embedded with rational components. -/
abbrev Coord : Type := ℚ × ℚ × ℚ

namespace Coord

def add (a b : Coord) : Coord := (a.1 + b.1, a.2.1 + b.2.1, a.2.2 + b.2.2)

def sub (a b : Coord) : Coord := (a.1 - b.1, a.2.1 - b.2.1, a.2.2 - b.2.2)

def smul (q : ℚ) (a : Coord) : Coord := (q * a.1, q * a.2.1, q * a.2.2)

/-- Component-wise product, used for applying the (Z, Y, X) physical scaling
to a voxel coordinate (`coords * self.scaling`). -/
def scale (s a : Coord) : Coord := (s.1 * a.1, s.2.1 * a.2.1, s.2.2 * a.2.2)

end Coord

/-- Squared Euclidean distance between two physically scaled coordinates.
Comparisons `dist < r` in the source are embedded as `distSq < r * r`
(equivalent over the reals since both sides are nonnegative). -/
def scaledDistSq (s a b : Coord) : ℚ :=
  let d := Coord.sub (Coord.scale s a) (Coord.scale s b)
  d.1 * d.1 + d.2.1 * d.2.1 + d.2.2 * d.2.2

/-- Floor square root of a natural number by linear scan (structurally
evaluating, so concrete instances reduce inside the kernel). -/
def natSqrt (n : ℕ) : ℕ :=
  (List.range (n + 1)).foldl (fun acc k => if k * k ≤ n then k else acc) 0

/-- Embedding of `np.sqrt` on rationals: exact whenever the numerator and
denominator of the reduced input are perfect squares (true of every use in
the theorems below), a floor-style approximation otherwise. -/
def ratSqrt (q : ℚ) : ℚ :=
  (natSqrt q.num.natAbs : ℚ) / (natSqrt q.den : ℚ)

/-- `np.min` of a nonempty list (0 as a junk value on the empty list, which
no use below reaches). -/
def listMin : List ℚ → ℚ
  | [] => 0
  | [x] => x
  | x :: y :: xs => min x (listMin (y :: xs))

/-- Sum of a list of rationals (`np.sum`). -/
def listSum (l : List ℚ) : ℚ := l.foldr (· + ·) 0

/-- First index attaining the minimum of a list (`np.argmin` on floats with
no NaN present). -/
def argminIdx : List ℚ → Option ℕ
  | [] => none
  | x :: xs =>
    match argminIdx xs with
    | none => some 0
    | some j => if x ≤ (x :: xs).getD (j + 1) x then some 0 else some (j + 1)

/-! ## FlowInterpolator (`src_2/tracking/flow_interpolation.py`)

`flow_vector_array` rows have layout `(frame, z, y, x, dz, dy, dx, cost)`;
each row is embedded as a `FlowRecord`.  The object's mutable attributes
`current_t`, `check_rows`, `check_coords`, `current_tree` become fields of
`FlowInterpState`; `interpolate_coord` becomes a state-passing function. -/

/-- One row of the persisted flow table: origin frame, origin coordinate
(columns 1:4), displacement vector (columns 4:7), assignment cost (last
column). -/
structure FlowRecord where
  t : ℚ
  origin : Coord
  vec : Coord
  cost : ℚ
  deriving DecidableEq, Repr

instance : Inhabited FlowRecord :=
  ⟨{ t := 0, origin := (0, 0, 0), vec := (0, 0, 0), cost := 0 }⟩

/-- The mutable state of a `FlowInterpolator` object. -/
structure FlowInterpState where
  forward : Bool
  maxDistanceUm : ℚ
  scaling : Coord
  flowVectorArray : List FlowRecord
  currentT : Option ℚ
  checkRows : List FlowRecord
  checkCoords : List Coord
  currentTree : List Coord
  deriving Repr

/-- A freshly constructed `FlowInterpolator` (after `_initialize`):
`current_t`, `check_rows`, `check_coords` and the tree are unset. -/
def initInterp (forward : Bool) (maxd : ℚ) (scaling : Coord)
    (arr : List FlowRecord) : FlowInterpState :=
  { forward := forward, maxDistanceUm := maxd, scaling := scaling,
    flowVectorArray := arr, currentT := none, checkRows := [],
    checkCoords := [], currentTree := [] }

/-- Insertion of a rational into a sorted list, ascending. -/
def insertAsc (x : ℚ) : List ℚ → List ℚ
  | [] => [x]
  | y :: ys => if x ≤ y then x :: y :: ys else y :: insertAsc x ys

/-- Ascending sort, used to embed the distance list returned by
`cKDTree.query(coord, k=len(nearby_idxs))`: the distances of the k nearest
points come back sorted ascending. -/
def sortAsc (l : List ℚ) : List ℚ := l.foldr insertAsc []

/-- `_get_nearby_coords` without the tree-rebuild side effect: indices of
tree points within `max_distance_um` of the query (`query_ball_point`, a
closed ball), paired with the ascending-sorted distances to those points
(`cKDTree.query` with `k = len(nearby_idxs)`).  Returns `none` when no
point is in range. -/
def getNearbyCoords (s : FlowInterpState) (coord : Coord) :
    Option (List ℕ × List ℚ) :=
  let rsq := s.maxDistanceUm * s.maxDistanceUm
  let nearby := (List.range s.currentTree.length).filter (fun i =>
    0 ≤ s.maxDistanceUm ∧
      scaledDistSq s.scaling (s.currentTree.getD i coord) coord ≤ rsq)
  if nearby = [] then none
  else
    let dists := sortAsc (nearby.map (fun i =>
      ratSqrt (scaledDistSq s.scaling (s.currentTree.getD i coord) coord)))
    some (nearby, dists)

/-- `_get_vector_weights`: inputs are the assignment costs of the nearby
rows (column `-1` of `check_rows[nearby_idxs]`) and the distance list.
Cost weights are the negated costs, distance weights are `1/d` unless some
distance is exactly zero (then the indicator of `d = 0`), the products are
shifted so their minimum is 1 and normalized to sum to 1. -/
def getVectorWeights (costs dists : List ℚ) : List ℚ :=
  let costWeights := costs.map (fun c => -c)
  let distanceWeights :=
    if listMin dists = 0 then dists.map (fun d => if d = 0 then 1 else 0)
    else dists.map (fun d => 1 / d)
  let weights := List.zipWith (· * ·) costWeights distanceWeights
  let shifted := weights.map (fun w => w - (listMin weights - 1))
  shifted.map (fun w => w / listSum shifted)

/-- `_get_final_vector`: the weighted sum of the nearby rows' displacement
vectors (columns `4:7`).  The `len(weights.shape) == 0` branch of the
source is unreachable (the weights are always a 1-D array) and is omitted. -/
def getFinalVector (vectors : List Coord) (weights : List ℚ) : Coord :=
  (List.zipWith Coord.smul weights vectors).foldr Coord.add (0, 0, 0)

/-- Following the spec's words for the interpolation weights: "weight =
(inverse assignment cost, shifted positive) × (inverse distance, or a
large constant if distance is exactly zero); weights are normalized to sum
to one".  The unspecified shift and large constant are fixed
representatively at 1 and 1000. -/
def specVectorWeights (costs dists : List ℚ) : List ℚ :=
  let w := List.zipWith (fun c d =>
    (1 / c + 1) * (if d = 0 then 1000 else 1 / d)) costs dists
  w.map (fun x => x / listSum w)

/-- `interpolate_coord(coord, t)`: refresh `check_rows` / `check_coords`
when `current_t != t` (forward: rows with frame `t`, anchored at their
origins; backward: rows with frame `t-1`, anchored at origin + vector),
rebuild the k-d tree under the same condition, query it, and combine the
nearby displacement vectors.  `current_t` is updated to `t` only on the
successful path, exactly as in the source. -/
def interpolateCoord (s : FlowInterpState) (coord : Coord) (t : ℚ) :
    FlowInterpState × Option Coord :=
  let s1 :=
    if s.currentT ≠ some t then
      if s.forward then
        let rows := s.flowVectorArray.filter (fun r => r.t = t)
        { s with checkRows := rows, checkCoords := rows.map (·.origin) }
      else
        let rows := s.flowVectorArray.filter (fun r => r.t = t - 1)
        { s with checkRows := rows,
                 checkCoords := rows.map (fun r => Coord.add r.origin r.vec) }
    else s
  let s2 :=
    if s1.currentT ≠ some t then { s1 with currentTree := s1.checkCoords }
    else s1
  match getNearbyCoords s2 coord with
  | none => (s2, none)
  | some (nearby, dists) =>
    let costs := nearby.map (fun i =>
      ((s2.checkRows.getD i default).cost))
    let weights := getVectorWeights costs dists
    let vectors := nearby.map (fun i => (s2.checkRows.getD i default).vec)
    let finalVector := getFinalVector vectors weights
    ({ s2 with currentT := some t }, some finalVector)

/-! ## VoxelReassigner (`src_2/tracking/voxel_reassignment.py`)

`_assign_unique_matches` receives three parallel sequences (next-frame
match coordinates, distances, previous-frame coordinates); they are
embedded zipped as one list of `(next, distance, prev)` triples.  The
residual-matching `while` loop of `match_voxels` (lines 134-151) becomes a
step function `residualStep` plus a fuelled runner `runResidual`. -/

/-- Append an entry to a key's list in an insertion-ordered association
list, creating the key at the end when absent (Python `dict` semantics of
`match_dict` in `_assign_unique_matches`). -/
def groupInsert (key : Coord) (entry : ℚ × Coord) :
    List (Coord × List (ℚ × Coord)) → List (Coord × List (ℚ × Coord))
  | [] => [(key, [entry])]
  | (k, es) :: rest =>
    if k = key then (k, es ++ [entry]) :: rest
    else (k, es) :: groupInsert key entry rest

/-- The `match_dict` of `_assign_unique_matches`: distances and prev
coordinates grouped by next-frame match coordinate, keys in first-seen
order. -/
def buildMatchDict (input : List (Coord × ℚ × Coord)) :
    List (Coord × List (ℚ × Coord)) :=
  input.foldl (fun g e => groupInsert e.1 (e.2.1, e.2.2) g) []

/-- Lookup in the insertion-ordered association list (reading side of the
`match_dict`). -/
def dictGet (k : Coord) : List (Coord × List (ℚ × Coord)) → List (ℚ × Coord)
  | [] => []
  | (k', es) :: rest => if k' = k then es else dictGet k rest

/-- `_assign_unique_matches`: for every distinct next-frame coordinate keep
exactly one pairing — the single entry when unique, otherwise the entry at
`np.argmin` of the distances.  Returns `(vox_prev_matches,
vox_next_matches)`. -/
def assignUniqueMatches (input : List (Coord × ℚ × Coord)) :
    List Coord × List Coord :=
  let dict := buildMatchDict input
  let prevs := dict.map (fun g =>
    if g.2.length = 1 then (g.2.headD (0, (0, 0, 0))).2
    else
      match argminIdx (g.2.map (·.1)) with
      | some i => (g.2.getD i (0, (0, 0, 0))).2
      | none => (0, 0, 0))
  (prevs, dict.map (·.1))

/-- The unmatched pool of `match_voxels`: next-frame voxels whose tuple is
not among the already matched next coordinates (lines 132-133 and
146-147). -/
def unmatchedCoords (voxNext nextMatched : List Coord) : List Coord :=
  voxNext.filter (fun c => decide (¬ c ∈ nextMatched))

/-- State of the residual-matching loop: the parallel lists
`prev_coords_matched` and `next_coords_matched`. -/
structure ReassignLoopState where
  prevMatched : List Coord
  nextMatched : List Coord
  deriving Repr

/-- One unmatched voxel's candidate in the residual loop: the prev
coordinate linked to its nearest already-matched next coordinate
(`tree.query(..., k=1)`), provided the (scaled, physical) distance is below
`max_distance_um`; `none` otherwise.  (On an empty tree scipy reports an
infinite distance, so the gate fails — embedded by `argminIdx = none`.) -/
def residualCandidate (scaling : Coord) (maxd : ℚ)
    (st : ReassignLoopState) (u : Coord) : Option Coord :=
  match argminIdx (st.nextMatched.map (fun m => scaledDistSq scaling m u)) with
  | none => none
  | some i =>
    if 0 < maxd ∧ scaledDistSq scaling (st.nextMatched.getD i u) u < maxd * maxd
    then st.prevMatched.get? i
    else none

/-- One iteration of the `while unmatched_diff` loop (lines 136-148):
gather gated nearest-neighbour matches for all still-unmatched next-frame
voxels; `none` signals the `break` on an empty match list, otherwise the
matched lists grow by the new pairs. -/
def residualStep (scaling : Coord) (maxd : ℚ) (voxNext : List Coord)
    (st : ReassignLoopState) : Option ReassignLoopState :=
  let um := unmatchedCoords voxNext st.nextMatched
  let pairs := um.filterMap (fun u =>
    (residualCandidate scaling maxd st u).map (fun p => (p, u)))
  if pairs = [] then none
  else some { prevMatched := st.prevMatched ++ pairs.map (·.1),
              nextMatched := st.nextMatched ++ pairs.map (·.2) }

/-- Fuelled runner for the residual loop; the boolean records whether the
loop exited (rather than running out of fuel). -/
def runResidual (scaling : Coord) (maxd : ℚ) (voxNext : List Coord) :
    ℕ → ReassignLoopState → ReassignLoopState × Bool
  | 0, st => (st, false)
  | n + 1, st =>
    match residualStep scaling maxd voxNext st with
    | none => (st, true)
    | some st' => runResidual scaling maxd voxNext n st'

/-! ## IEEE-like float values for `hu.py`

`HuMomentTracking` relies on NaN (undefined descriptors, 0/0) and `inf`
(masked-out cost entries), so its arrays are embedded over `FVal`, rational
numbers extended with NaN and the two infinities, with numpy/IEEE-754
operation semantics. -/

/-- A numpy float value: NaN, +inf, -inf, or a finite (rational) number. -/
inductive FVal where
  | nan : FVal
  | pinf : FVal
  | ninf : FVal
  | fin : ℚ → FVal
  deriving DecidableEq, Repr

namespace FVal

/-- IEEE addition. -/
def fadd : FVal → FVal → FVal
  | nan, _ => nan
  | _, nan => nan
  | pinf, ninf => nan
  | ninf, pinf => nan
  | pinf, _ => pinf
  | _, pinf => pinf
  | ninf, _ => ninf
  | _, ninf => ninf
  | fin a, fin b => fin (a + b)

/-- IEEE negation. -/
def fneg : FVal → FVal
  | nan => nan
  | pinf => ninf
  | ninf => pinf
  | fin a => fin (-a)

/-- IEEE subtraction. -/
def fsub (a b : FVal) : FVal := fadd a (fneg b)

/-- IEEE multiplication (`inf * 0 = nan`, `nan * 0 = nan`). -/
def fmul : FVal → FVal → FVal
  | nan, _ => nan
  | _, nan => nan
  | pinf, pinf => pinf
  | pinf, ninf => ninf
  | ninf, pinf => ninf
  | ninf, ninf => pinf
  | pinf, fin b => if b = 0 then nan else if 0 < b then pinf else ninf
  | fin a, pinf => if a = 0 then nan else if 0 < a then pinf else ninf
  | ninf, fin b => if b = 0 then nan else if 0 < b then ninf else pinf
  | fin a, ninf => if a = 0 then nan else if 0 < a then ninf else pinf
  | fin a, fin b => fin (a * b)

/-- IEEE division (`0/0 = nan`, `x/0 = ±inf`, `inf/inf = nan`). -/
def fdiv : FVal → FVal → FVal
  | nan, _ => nan
  | _, nan => nan
  | pinf, pinf => nan
  | pinf, ninf => nan
  | ninf, pinf => nan
  | ninf, ninf => nan
  | pinf, fin b => if 0 ≤ b then pinf else ninf
  | ninf, fin b => if 0 ≤ b then ninf else pinf
  | fin _, pinf => fin 0
  | fin _, ninf => fin 0
  | fin a, fin b =>
    if b = 0 then (if a = 0 then nan else if 0 < a then pinf else ninf)
    else fin (a / b)

/-- IEEE square root (`np.sqrt`); exact on perfect-square rationals. -/
def fsqrt : FVal → FVal
  | nan => nan
  | pinf => pinf
  | ninf => nan
  | fin a => if a < 0 then nan else fin (ratSqrt a)

/-- IEEE strict less-than as numpy evaluates it (`nan` incomparable). -/
def flt : FVal → FVal → Bool
  | nan, _ => false
  | _, nan => false
  | ninf, ninf => false
  | ninf, _ => true
  | _, ninf => false
  | pinf, _ => false
  | fin _, pinf => true
  | fin a, fin b => decide (a < b)

def isNan : FVal → Bool
  | nan => true
  | _ => false

end FVal

/-- `np.sum` over floats: left fold of IEEE addition from 0. -/
def fsum (l : List FVal) : FVal := l.foldl FVal.fadd (FVal.fin 0)

/-- `np.nansum`: NaN entries are treated as zero, i.e. dropped from the
sum. -/
def nansum (l : List FVal) : FVal := fsum (l.filter (fun x => ¬ x.isNan))

/-- `np.min` together with `np.argmin` on a float array: if any NaN is
present both report the first NaN; otherwise the minimum and its first
index. -/
def npMinIdx : List FVal → Option (ℕ × FVal)
  | [] => none
  | x :: xs =>
    if x.isNan then some (0, x)
    else
      match npMinIdx xs with
      | none => some (0, x)
      | some (j, v) =>
        if v.isNan then some (j + 1, v)
        else if FVal.flt v x then some (j + 1, v) else some (0, x)

/-! ## HuMomentTracking cost matrix and matching (`src_2/tracking/hu.py`)

Marker feature vectors (`stats_vecs`, `hu_vecs`) are lists of per-channel
values; matrices are lists of rows.  The channel dimension of a
`(rows, cols, depth)` array is modelled as a list of `(rows, cols)`
slices. -/

/-- `_get_distance_mask`, distance part: `cdist` of the scaled post-frame
marker coordinates (rows) against the scaled pre-frame coordinates
(columns). -/
def cdistMatrix (post pre : List Coord) (scaling : Coord) : List (List ℚ) :=
  post.map (fun p => pre.map (fun q => ratSqrt (scaledDistSq scaling p q)))

/-- `_get_distance_mask`, mask part: `distance_matrix < max_distance_um`,
embedded on squared distances (equivalent over the reals). -/
def distanceMask (post pre : List Coord) (scaling : Coord) (maxd : ℚ) :
    List (List Bool) :=
  post.map (fun p => pre.map (fun q =>
    decide (0 < maxd ∧ scaledDistSq scaling p q < maxd * maxd)))

/-- `_get_difference_matrix` for one feature channel: pairwise absolute
differences of the post (rows) and pre (columns) channel values. -/
def differenceMatrix (m1 m2 : List ℚ) : List (List FVal) :=
  m1.map (fun a => m2.map (fun b => FVal.fin |a - b|))

/-- Count of `True` entries of the distance mask (`xp.sum(mask)`). -/
def maskSum (mask : List (List Bool)) : ℕ :=
  listSum (mask.map (fun row => ((row.filter id).length : ℚ))) |>.num.toNat

/-- Mask a matrix entry: `slice * mask` with the boolean cast to 0/1 float
(IEEE: `nan * 0 = nan`, `inf * 0 = nan`, exactly as numpy). -/
def maskMul (x : FVal) (b : Bool) : FVal :=
  FVal.fmul x (FVal.fin (if b then 1 else 0))

/-- The per-channel mean of `_zscore_normalize`:
`xp.sum(slice_m * mask) / sum_mask`. -/
def zscoreMean (slice : List (List FVal)) (mask : List (List Bool)) : FVal :=
  FVal.fdiv (fsum ((List.zipWith (fun r mr => List.zipWith maskMul r mr)
    slice mask).flatten)) (FVal.fin (maskSum mask))

/-- The per-channel standard deviation of `_zscore_normalize`:
`xp.sqrt(xp.sum((slice_m - mean) ** 2 * mask) / sum_mask)`. -/
def zscoreStd (slice : List (List FVal)) (mask : List (List Bool))
    (mean : FVal) : FVal :=
  FVal.fsqrt (FVal.fdiv (fsum ((List.zipWith (fun r mr =>
    List.zipWith (fun x b => maskMul (FVal.fmul (FVal.fsub x mean)
      (FVal.fsub x mean)) b) r mr) slice mask).flatten))
    (FVal.fin (maskSum mask)))

/-- `_zscore_normalize` on one channel slice: `(x - mean) / std`, with
entries outside the mask overwritten by `+inf`. -/
def zscoreChannel (slice : List (List FVal)) (mask : List (List Bool)) :
    List (List FVal) :=
  let mean := zscoreMean slice mask
  let std := zscoreStd slice mask mean
  List.zipWith (fun r mr => List.zipWith (fun x b =>
    if b then FVal.fdiv (FVal.fsub x mean) std else FVal.pinf) r mr)
    slice mask

/-- `_zscore_normalize` over the channel dimension. -/
def zscoreNormalize (channels : List (List (List FVal)))
    (mask : List (List Bool)) : List (List (List FVal)) :=
  channels.map (fun c => zscoreChannel c mask)

/-- Elementwise division of all channel slices by the channel count
(`/ stats_matrix.shape[2]`). -/
def divByDepth (channels : List (List (List FVal))) (depth : ℕ) :
    List (List (List FVal)) :=
  channels.map (fun c => c.map (fun r => r.map (fun x =>
    FVal.fdiv x (FVal.fin depth))))

/-- Entry `(i, j)` of a channel slice (junk NaN out of range). -/
def sliceAt (c : List (List FVal)) (i j : ℕ) : FVal :=
  (c.getD i []).getD j FVal.nan

/-- `_get_cost_matrix`: one z-scored distance channel (normalized by the
maximum distance), the z-scored feature-difference channels each divided by
their channel count, summed per cell with `xp.nansum`. -/
def getCostMatrix (post pre : List Coord) (scaling : Coord) (maxd : ℚ)
    (statsPost statsPre huPost huPre : List (List ℚ)) : List (List FVal) :=
  let mask := distanceMask post pre scaling maxd
  let dmat := cdistMatrix post pre scaling
  let dnorm : List (List FVal) :=
    dmat.map (fun r => r.map (fun v => FVal.fdiv (FVal.fin v) (FVal.fin maxd)))
  let zdist := zscoreChannel dnorm mask
  let nStats := (statsPost.headD []).length
  let statsChannels := (List.range nStats).map (fun k =>
    differenceMatrix (statsPost.map (fun v => v.getD k 0))
      (statsPre.map (fun v => v.getD k 0)))
  let zstats := divByDepth (zscoreNormalize statsChannels mask) nStats
  let nHu := (huPost.headD []).length
  let huChannels := (List.range nHu).map (fun k =>
    differenceMatrix (huPost.map (fun v => v.getD k 0))
      (huPre.map (fun v => v.getD k 0)))
  let zhu := divByDepth (zscoreNormalize huChannels mask) nHu
  (List.range post.length).map (fun i => (List.range pre.length).map (fun j =>
    nansum (sliceAt zdist i j :: (zstats.map (fun c => sliceAt c i j) ++
      zhu.map (fun c => sliceAt c i j)))))

/-- `_find_best_matches` with its `cost_cutoff = 1`: every row's
minimum-cost column and every column's minimum-cost row whose value does
not exceed the cutoff, returned as `(row, col)` candidate pairs (the
`row_matches, col_matches` lists zipped). -/
def findBestMatches (cost : List (List FVal)) : List (ℕ × ℕ) :=
  let cutoff := FVal.fin 1
  let nCols := (cost.headD []).length
  let rowCands := (List.range cost.length).filterMap (fun i =>
    match npMinIdx (cost.getD i []) with
    | none => none
    | some (j, v) => if FVal.flt cutoff v then none else some (i, j))
  let colCands := (List.range nCols).filterMap (fun j =>
    match npMinIdx (cost.map (fun r => r.getD j FVal.nan)) with
    | none => none
    | some (i, v) => if FVal.flt cutoff v then none else some (i, j))
  rowCands ++ colCands

/-- Accepted correspondences of a frame pair as a function of the maximum
link distance: `_get_cost_matrix` followed by `_find_best_matches`. -/
def huAcceptedMatches (post pre : List Coord) (scaling : Coord) (maxd : ℚ)
    (statsPost statsPre huPost huPre : List (List ℚ)) : List (ℕ × ℕ) :=
  findBestMatches (getCostMatrix post pre scaling maxd statsPost statsPre
    huPost huPre)

/-- `_find_confident_matches`: row argminima (`-1`, i.e. `none`, where the
row minimum is `inf`), column argminima likewise; a row `i` is accepted
with its argmin column `j` when the column's argmin points back at `i` (the
`-1` guard discards rows whose minimum is `inf`; numpy's `-1` wraparound
indexing in the guard's comparison never accepts, exactly as modelled). -/
def findConfidentMatches (cost : List (List FVal)) : List (ℕ × ℕ) :=
  let rowArg : ℕ → Option ℕ := fun i =>
    match npMinIdx (cost.getD i []) with
    | none => none
    | some (j, v) => if v = FVal.pinf then none else some j
  let colArg : ℕ → Option ℕ := fun j =>
    match npMinIdx (cost.map (fun r => r.getD j FVal.nan)) with
    | none => none
    | some (i, v) => if v = FVal.pinf then none else some i
  (List.range cost.length).filterMap (fun i =>
    match rowArg i with
    | none => none
    | some j => if (colArg j) == some i then some (i, j) else none)

/-- Following the spec's words for the z-score statistics ("mean/variance
estimated restricted to the gated mask", with undefined descriptor values
"excluded from z-score statistics"): the mean of the finite masked entries
only. -/
def specMeanDefinedOnly (slice : List (List FVal)) (mask : List (List Bool)) :
    Option ℚ :=
  let cells := (List.zipWith (fun r mr => List.zipWith (fun x b => (x, b))
    r mr) slice mask).flatten
  let vals := cells.filterMap (fun xb =>
    match xb with
    | (FVal.fin q, true) => some q
    | _ => none)
  if vals.length = 0 then none else some (listSum vals / vals.length)

/-! ## NodeTrackConstructor (`src/pipeline/node_tracking.py`)

The padded square cost matrix of `_get_assignment_matrix` holds finite
distance-per-second values, the padding constant, and `inf` for gated or
stale entries; it is embedded as a function into `WithTop ℚ` (`⊤ = inf`;
NaN never arises there).  The confidence-1 and confidence-2 acceptance
conditions are embedded as predicates of the cost matrix, the matrix
dimensions, the threshold and the candidate pair. -/

/-- Extended costs: rationals plus the `inf` sentinel. -/
abbrev ECost : Type := WithTop ℚ

/-- Minimum element of a list of extended costs (`none` on the empty
list, where the source's `xp.min` / `sorted(...)[0]` would fail). -/
def listMinE : List ECost → Option ECost
  | [] => none
  | [x] => some x
  | x :: y :: xs =>
    match listMinE (y :: xs) with
    | none => some x
    | some m => some (min x m)

/-- The below-threshold ("reachable") entries of column `j`:
`cost_matrix[cost_matrix[:, j] < distance_thresh, j]`. -/
def reachColVals (cost : ℕ → ℕ → ECost) (nRows : ℕ) (th : ℚ) (j : ℕ) :
    List ECost :=
  ((List.range nRows).filter (fun l => decide (cost l j < (th : ECost)))).map
    (fun l => cost l j)

/-- The below-threshold entries of row `i`:
`cost_matrix[i, cost_matrix[i, :] < distance_thresh]`. -/
def reachRowVals (cost : ℕ → ℕ → ECost) (nCols : ℕ) (th : ℚ) (i : ℕ) :
    List ECost :=
  ((List.range nCols).filter (fun k => decide (cost i k < (th : ECost)))).map
    (fun k => cost i k)

/-- The node-pass acceptance condition of `_assign_confidence_1_matches`:
the assignment's cost equals the minimum reachable cost of the node's
column (`assignment_cost == sorted_possible[0]`) and does not exceed the
minimum reachable cost of the track's row
(`assignment_cost - min_track_cost > 0` skips). -/
def conf1AcceptNode (cost : ℕ → ℕ → ECost) (nRows nCols : ℕ) (th : ℚ)
    (i j : ℕ) : Bool :=
  (listMinE (reachColVals cost nRows th j) == some (cost i j)) &&
  (match listMinE (reachRowVals cost nCols th i) with
   | some m => decide (cost i j ≤ m)
   | none => false)

/-- The track-pass acceptance condition of `_assign_confidence_1_matches`
(the mirror image: row minimum first, column check second). -/
def conf1AcceptTrack (cost : ℕ → ℕ → ECost) (nRows nCols : ℕ) (th : ℚ)
    (i j : ℕ) : Bool :=
  (listMinE (reachRowVals cost nCols th i) == some (cost i j)) &&
  (match listMinE (reachColVals cost nRows th j) with
   | some m => decide (cost i j ≤ m)
   | none => false)

/-- The acceptance condition of `_assign_confidence_2_matches` (both
passes compute the same quantity): the concatenation of the node column's
below-threshold entries and the track row's below-threshold entries has
length exactly 2. -/
def conf2Accept (cost : ℕ → ℕ → ECost) (nRows nCols : ℕ) (th : ℚ)
    (i j : ℕ) : Bool :=
  (reachColVals cost nRows th j).length + (reachRowVals cost nCols th i).length
    == 2

/-- Following the spec's words for Tier 2: the number of reachable
candidates in the pair's row and column other than the assignment itself. -/
def conf2OtherReach (cost : ℕ → ℕ → ECost) (nRows nCols : ℕ) (th : ℚ)
    (i j : ℕ) : ℕ :=
  ((List.range nRows).filter (fun l =>
    decide (l ≠ i ∧ cost l j < (th : ECost)))).length +
  ((List.range nCols).filter (fun k =>
    decide (k ≠ j ∧ cost i k < (th : ECost)))).length

/-! ### NodeTrack merge/emerge bookkeeping -/

/-- The two mutable dictionaries of a `NodeTrack`
(`possible_merges_to`, `possible_emerges_from`): insertion-ordered maps
from frame number to a list of `(partner id, assignment cost)` records. -/
structure NodeTrackState where
  possibleMergesTo : List (ℕ × List (ℕ × ℚ))
  possibleEmergesFrom : List (ℕ × List (ℕ × ℚ))
  deriving DecidableEq, Repr

/-- A fresh `NodeTrack.__init__`: both dictionaries empty. -/
def initNodeTrack : NodeTrackState :=
  { possibleMergesTo := [], possibleEmergesFrom := [] }

/-- Keys of an insertion-ordered dictionary. -/
def dictKeys (d : List (ℕ × List (ℕ × ℚ))) : List ℕ := d.map (·.1)

/-- Python `d[k] = v`: overwrite in place when the key exists, append the
new key otherwise. -/
def dictSet (k : ℕ) (v : List (ℕ × ℚ)) :
    List (ℕ × List (ℕ × ℚ)) → List (ℕ × List (ℕ × ℚ))
  | [] => [(k, v)]
  | (k', v') :: rest =>
    if k' = k then (k, v) :: rest else (k', v') :: dictSet k v rest

/-- Python `d[k].append(e)` for an existing key. -/
def dictAppend (k : ℕ) (e : ℕ × ℚ) :
    List (ℕ × List (ℕ × ℚ)) → List (ℕ × List (ℕ × ℚ))
  | [] => []
  | (k', v') :: rest =>
    if k' = k then (k', v' ++ [e]) :: rest else (k', v') :: dictAppend k e rest

/-- `NodeTrack.possibly_merged_to`: when the frame is not a key of
`possible_merges_to`, the record is written into `possible_emerges_from`
as a fresh singleton list; only when the frame is already a key of
`possible_merges_to` (never, starting from empty) is it appended there. -/
def possiblyMergedTo (tr : NodeTrackState) (node frame : ℕ) (cost : ℚ) :
    NodeTrackState :=
  if frame ∈ dictKeys tr.possibleMergesTo then
    { tr with possibleMergesTo :=
        dictAppend frame (node, cost) tr.possibleMergesTo }
  else
    { tr with possibleEmergesFrom :=
        dictSet frame [(node, cost)] tr.possibleEmergesFrom }

/-- `NodeTrack.possibly_emerged_from`: create-or-append on
`possible_emerges_from`. -/
def possiblyEmergedFrom (tr : NodeTrackState) (track frame : ℕ) (cost : ℚ) :
    NodeTrackState :=
  if frame ∈ dictKeys tr.possibleEmergesFrom then
    { tr with possibleEmergesFrom :=
        dictAppend frame (track, cost) tr.possibleEmergesFrom }
  else
    { tr with possibleEmergesFrom :=
        dictSet frame [(track, cost)] tr.possibleEmergesFrom }

/-- The operations that touch a `NodeTrack`'s merge/emerge dictionaries. -/
inductive TrackOp where
  | mergedTo (node frame : ℕ) (cost : ℚ)
  | emergedFrom (track frame : ℕ) (cost : ℚ)
  deriving Repr

def applyTrackOp (tr : NodeTrackState) : TrackOp → NodeTrackState
  | TrackOp.mergedTo n f c => possiblyMergedTo tr n f c
  | TrackOp.emergedFrom t f c => possiblyEmergedFrom tr t f c

/-! ## Helper lemmas -/

theorem listMin_le_mem : ∀ (l : List ℚ), ∀ x ∈ l, listMin l ≤ x := by
  intro l
  induction l with
  | nil => intro x hx; cases hx
  | cons a t ih =>
    intro x hx
    rcases List.mem_cons.mp hx with h | h
    · cases t with
      | nil => simp [listMin, h]
      | cons b t' => simp [listMin, h]
    · cases t with
      | nil => cases h
      | cons b t' => exact le_trans (by simp [listMin]) (ih x h)

theorem listSum_map_div (l : List ℚ) (s : ℚ) :
    listSum (l.map (fun x => x / s)) = listSum l / s := by
  induction l with
  | nil => simp [listSum]
  | cons a t ih => simp [listSum] at ih ⊢; rw [ih]; ring

theorem listSum_ge_length (l : List ℚ) (h : ∀ x ∈ l, 1 ≤ x) :
    (l.length : ℚ) ≤ listSum l := by
  induction l with
  | nil => simp [listSum]
  | cons a t ih =>
    have ha := h a (by simp)
    have ht := ih (fun x hx => h x (List.mem_cons_of_mem _ hx))
    simp only [listSum, List.foldr_cons, List.length_cons] at ht ⊢
    push_cast
    calc ((t.length : ℚ) + 1) ≤ listSum t + a := by
          simpa [listSum, add_comm] using add_le_add ht ha
      _ = a + listSum t := by ring

theorem filter_length_mono {α : Type} (l : List α) (p q : α → Bool)
    (h : ∀ x, q x = true → p x = true) :
    (l.filter q).length ≤ (l.filter p).length := by
  induction l with
  | nil => simp
  | cons a t ih =>
    by_cases hq : q a = true
    · simp [List.filter_cons, hq, h a hq, Nat.succ_le_succ ih]
    · by_cases hp : p a = true
      · simp only [List.filter_cons, hq, hp]
        simp only [Bool.false_eq_true, if_false, if_true, List.length_cons]
        exact Nat.le_succ_of_le ih
      · simp only [List.filter_cons, hq, hp]
        simpa using ih

theorem filter_length_lt {α : Type} (l : List α) (p q : α → Bool)
    (h : ∀ x, q x = true → p x = true)
    (x : α) (hx : x ∈ l) (hpx : p x = true) (hqx : q x = false) :
    (l.filter q).length < (l.filter p).length := by
  induction l with
  | nil => cases hx
  | cons a t ih =>
    rcases List.mem_cons.mp hx with rfl | hmem
    · have hq : q x ≠ true := by simp [hqx]
      simp only [List.filter_cons, hpx, if_true, hqx]
      simp only [Bool.false_eq_true, if_false, List.length_cons]
      exact Nat.lt_succ_of_le (filter_length_mono t p q h)
    · by_cases hq : q a = true
      · simp [List.filter_cons, hq, h a hq, Nat.succ_lt_succ (ih hmem)]
      · by_cases hp : p a = true
        · simp only [List.filter_cons, hq, hp]
          simp only [Bool.false_eq_true, if_false, if_true, List.length_cons]
          exact Nat.lt_succ_of_lt (ih hmem)
        · simp only [List.filter_cons, hq, hp]
          simpa using ih hmem

theorem listMinE_cons_ne_none (a : ECost) (t : List ECost) :
    listMinE (a :: t) ≠ none := by
  cases t with
  | nil => simp [listMinE]
  | cons b t' =>
    simp only [listMinE]
    cases listMinE (b :: t') <;> simp

theorem listMinE_mem : ∀ (l : List ECost) (m : ECost),
    listMinE l = some m → m ∈ l := by
  intro l
  induction l with
  | nil => intro m h; cases h
  | cons a t ih =>
    intro m h
    cases t with
    | nil =>
      simp [listMinE] at h
      simp [h]
    | cons b t' =>
      rcases hmin : listMinE (b :: t') with _ | m'
      · exact absurd hmin (listMinE_cons_ne_none b t')
      · have hm : m = min a m' := by
          have h2 : some (min a m') = some m := by
            simpa [listMinE, hmin] using h
          exact (Option.some.inj h2).symm
        rcases le_total a m' with hle | hle
        · exact List.mem_cons.mpr (Or.inl (by rw [hm, min_eq_left hle]))
        · refine List.mem_cons.mpr (Or.inr ?_)
          rw [hm, min_eq_right hle]
          exact ih m' hmin

theorem listMinE_le : ∀ (l : List ECost) (m : ECost),
    listMinE l = some m → ∀ x ∈ l, m ≤ x := by
  intro l
  induction l with
  | nil => intro m h; cases h
  | cons a t ih =>
    intro m h x hx
    cases t with
    | nil =>
      simp [listMinE] at h
      rcases List.mem_cons.mp hx with rfl | hx'
      · rw [h]
      · cases hx'
    | cons b t' =>
      rcases hmin : listMinE (b :: t') with _ | m'
      · exact absurd hmin (listMinE_cons_ne_none b t')
      · have hm : m = min a m' := by
          have h2 : some (min a m') = some m := by
            simpa [listMinE, hmin] using h
          exact (Option.some.inj h2).symm
        rcases List.mem_cons.mp hx with rfl | hx'
        · rw [hm]; exact min_le_left _ _
        · rw [hm]
          exact le_trans (min_le_right _ _) (ih m' hmin x hx')

/-! ## Claim theorems -/

/-- C1: the claim states that a forward `interpolate_coord` query at time
`t` always computes its result from exactly the flow records whose origin
frame equals `t`, regardless of which times earlier queries used.  The
code violates this: `current_t` is updated only on the successful path, so
after a query at a different time returns `None`, `check_rows` holds the
other frame's records while `current_t` still names the earlier frame.
With the table `[A, B]` (`A` at frame 5 anchored at the origin, `B` at
frame 3 anchored at `(10,10,10)` with displacement `(0,2,0)`), the query
sequence `(0,0,0)@5`, `(0,0,0)@3`, `(10,10,10)@5` makes the third query —
a forward query at `t = 5` — return frame-3 record `B`'s vector, whereas
the same query against a fresh interpolator (which sees exactly the
frame-5 records, as the claim demands) returns `none`. -/
theorem claim1_interp_cache_staleness :
    (interpolateCoord ((interpolateCoord ((interpolateCoord
        (initInterp true 1 (1, 1, 1)
          [{ t := 5, origin := (0, 0, 0), vec := (1, 0, 0), cost := 1 },
           { t := 3, origin := (10, 10, 10), vec := (0, 2, 0), cost := 1 }])
        (0, 0, 0) 5).1) (0, 0, 0) 3).1) (10, 10, 10) 5).2 = some (0, 2, 0)
    ∧ (interpolateCoord
        (initInterp true 1 (1, 1, 1)
          [{ t := 5, origin := (0, 0, 0), vec := (1, 0, 0), cost := 1 },
           { t := 3, origin := (10, 10, 10), vec := (0, 2, 0), cost := 1 }])
        (10, 10, 10) 5).2 = none := by
  constructor <;> decide

/-- C5: undefined (NaN) descriptor values are claimed to be excluded from
the z-score mean/variance statistics and to contribute no cost (never
zero).  In the code a single NaN difference entry makes the channel mean
NaN (`xp.sum(slice * mask)` propagates NaN), which then turns the whole
z-scored channel into NaN, and `xp.nansum` then adds exactly 0 for every
NaN channel value — the zero-cost contribution the claim rules out.  The
spec-following mean over defined masked entries only would be `7/3`. -/
theorem claim5_nan_poisons_zscore :
    zscoreMean [[FVal.fin 1, FVal.fin 2], [FVal.fin 4, FVal.nan]]
        [[true, true], [true, true]] = FVal.nan
    ∧ specMeanDefinedOnly [[FVal.fin 1, FVal.fin 2], [FVal.fin 4, FVal.nan]]
        [[true, true], [true, true]] = some (7 / 3)
    ∧ zscoreChannel [[FVal.fin 1, FVal.fin 2], [FVal.fin 4, FVal.nan]]
        [[true, true], [true, true]] =
        [[FVal.nan, FVal.nan], [FVal.nan, FVal.nan]]
    ∧ nansum [FVal.nan, FVal.nan, FVal.nan] = FVal.fin 0 := by
  refine ⟨by rfl, by rfl, by rfl, by rfl⟩

/-- C10 counterexample: the claim says a merge record for a frame not yet
a key of `possible_merges_to` is *appended* to `possible_emerges_from`.
Two `possibly_merged_to` calls for the same frame show the second record
*overwrites* the first (`possible_emerges_from[frame] = [(node, cost)]`
assigns a fresh singleton), so nothing is appended. -/
theorem claim10_merge_record_overwrites :
    ([TrackOp.mergedTo 1 4 (1 / 2), TrackOp.mergedTo 2 4 (3 / 4)].foldl
        applyTrackOp initNodeTrack).possibleEmergesFrom = [(4, [(2, 3 / 4)])]
    ∧ ([TrackOp.mergedTo 1 4 (1 / 2), TrackOp.mergedTo 2 4 (3 / 4)].foldl
        applyTrackOp initNodeTrack).possibleEmergesFrom ≠
        [(4, [(1, 1 / 2), (2, 3 / 4)])]
    ∧ ([TrackOp.mergedTo 1 4 (1 / 2), TrackOp.mergedTo 2 4 (3 / 4)].foldl
        applyTrackOp initNodeTrack).possibleMergesTo = [] := by
  refine ⟨by rfl, by decide, by rfl⟩

/-- C7 counterexample: in the 2×2 matrix `[[1, 3/2], [5, 5]]` with
threshold 2, the pair `(0, 0)` has — excluding itself — exactly one other
reachable candidate (cost `3/2` in its row), so the claim accepts it at
tier 2; the code counts the assignment twice (once per side), obtains
`len(possible_assignments) = 3 ≠ 2`, and rejects it. -/
theorem claim7_sole_alternative_mismatch :
    conf2Accept
        (fun l k => (([[(1 : ECost), ((3 / 2 : ℚ) : ECost)],
          [(5 : ECost), (5 : ECost)]].getD l []).getD k ⊤)) 2 2 2 0 0 = false
    ∧ conf2OtherReach
        (fun l k => (([[(1 : ECost), ((3 / 2 : ℚ) : ECost)],
          [(5 : ECost), (5 : ECost)]].getD l []).getD k ⊤)) 2 2 2 0 0 = 1 := by
  constructor <;> decide

/-- C8 counterexample: two neighbours with equal assignment cost 5,
distances 0 and 1, displacement vectors `(7,0,0)` and `(0,7,0)`.  The
code's weighting (negated costs times the zero-distance indicator, shifted
and normalized) yields weights `(1/7, 6/7)` and displacement `(1, 6, 0)`;
the claimed formula — inverse cost shifted positive times inverse distance
or a large constant at distance zero — concentrates weight on the
zero-distance neighbour and yields a different displacement. -/
theorem claim8_weight_formula_mismatch :
    getFinalVector [(7, 0, 0), (0, 7, 0)] (getVectorWeights [5, 5] [0, 1])
      = (1, 6, 0)
    ∧ getFinalVector [(7, 0, 0), (0, 7, 0)] (specVectorWeights [5, 5] [0, 1])
      ≠ getFinalVector [(7, 0, 0), (0, 7, 0)] (getVectorWeights [5, 5] [0, 1])
    ∧ getVectorWeights [5, 5] [0, 1] = [1 / 7, 6 / 7] := by
  refine ⟨by rfl, by decide, by rfl⟩

/-- C9 counterexample: two post-frame markers at x = 9 and x = 3 and two
pre-frame markers at x = 0 and x = 20 (distance matrix `[[9,11],[3,17]]`),
one stats feature (absolute differences `[[4,2],[4,10]]`) and one constant
hu feature.  With maximum link distance 10 the pair `(0,0)` is accepted by
`_find_best_matches`; raising the distance to 18 re-normalizes the
distance term and recomputes the z-score statistics over the enlarged
mask, the cost of `(0,0)` is displaced as both its row's and its column's
minimum, and the pair is no longer accepted — the accepted set is not
monotone in the maximum link distance. -/
theorem claim9_distance_gate_not_monotone :
    ((0, 0) ∈ huAcceptedMatches [(0, 0, 9), (0, 0, 3)] [(0, 0, 0), (0, 0, 20)]
      (1, 1, 1) 10 [[14], [6]] [[10], [16]] [[0], [0]] [[0], [0]])
    ∧ ((0, 0) ∉ huAcceptedMatches [(0, 0, 9), (0, 0, 3)] [(0, 0, 0), (0, 0, 20)]
      (1, 1, 1) 18 [[14], [6]] [[10], [16]] [[0], [0]] [[0], [0]])
    ∧ (10 : ℚ) ≤ 18 := by
  refine ⟨by decide, by decide, by norm_num⟩

/-- C9 amended: what is monotone in the maximum link distance is the
distance gate itself — for `0 < d1 ≤ d2` every pair reachable under `d1`
is reachable under `d2` — while the set of accepted correspondences is not
(see the counterexample), because the distance term is renormalized by the
threshold and the z-score statistics are recomputed over the enlarged
mask. -/
theorem claim9_distance_mask_monotone :
    ∀ (post pre : List Coord) (scaling : Coord) (d1 d2 : ℚ) (i j : ℕ),
      0 < d1 → d1 ≤ d2 →
      ((distanceMask post pre scaling d1).getD i []).getD j false = true →
      ((distanceMask post pre scaling d2).getD i []).getD j false = true := by
  intro post pre scaling d1 d2 i j h0 hle h
  simp only [distanceMask, List.getD_eq_getElem?_getD, List.getElem?_map]
    at h ⊢
  cases hp : post[i]? with
  | none => rw [hp] at h; simp at h
  | some p =>
    rw [hp] at h
    simp only [Option.map_some', Option.getD_some, List.getElem?_map] at h ⊢
    cases hq : pre[j]? with
    | none => rw [hq] at h; simp at h
    | some q =>
      rw [hq] at h
      simp only [Option.map_some', Option.getD_some, decide_eq_true_eq]
        at h ⊢
      exact ⟨lt_of_lt_of_le h0 hle,
        lt_of_lt_of_le h.2 (mul_self_le_mul_self (le_of_lt h0) hle)⟩

/-- Witness for the amended C9 statement at a concrete instance. -/
theorem claim9_distance_mask_monotone_witness :
    (0 : ℚ) < 2 ∧ (2 : ℚ) ≤ 3
    ∧ ((distanceMask [(0, 0, 0)] [(0, 0, 1)] (1, 1, 1) 2).getD 0 []).getD 0
        false = true
    ∧ ((distanceMask [(0, 0, 0)] [(0, 0, 1)] (1, 1, 1) 3).getD 0 []).getD 0
        false = true :=
  ⟨by norm_num, by norm_num, by decide,
    claim9_distance_mask_monotone [(0, 0, 0)] [(0, 0, 1)] (1, 1, 1) 2 3 0 0
      (by norm_num) (by norm_num) (by decide)⟩

theorem residualStep_decreases (scaling : Coord) (maxd : ℚ)
    (voxNext : List Coord) (st st' : ReassignLoopState)
    (h : residualStep scaling maxd voxNext st = some st') :
    (unmatchedCoords voxNext st'.nextMatched).length <
      (unmatchedCoords voxNext st.nextMatched).length := by
  unfold residualStep at h
  set um := unmatchedCoords voxNext st.nextMatched with hum
  set pairs := um.filterMap (fun u =>
    (residualCandidate scaling maxd st u).map (fun p => (p, u))) with hpairs
  by_cases hp : pairs = []
  · rw [if_pos hp] at h; cases h
  · rw [if_neg hp] at h
    have hst' : st' =
        ⟨st.prevMatched ++ pairs.map (·.1), st.nextMatched ++ pairs.map (·.2)⟩ :=
      (Option.some.inj h).symm
    obtain ⟨pr, hpr⟩ := List.exists_mem_of_ne_nil pairs hp
    obtain ⟨u, humem, hfu⟩ := List.mem_filterMap.mp hpr
    obtain ⟨q, hcand, hq⟩ := Option.map_eq_some'.mp hfu
    have hpru : pr.2 = u := by rw [← hq]
    have hu : u ∈ voxNext ∧ u ∉ st.nextMatched := by
      simpa [hum, unmatchedCoords] using humem
    rw [hst']
    simp only [unmatchedCoords]
    refine filter_length_lt voxNext _ _ ?_ u hu.1 ?_ ?_
    · intro x hx
      simp only [decide_eq_true_eq, List.mem_append] at hx ⊢
      tauto
    · simpa using hu.2
    · have humap : u ∈ pairs.map (·.2) :=
        List.mem_map.mpr ⟨pr, hpr, hpru⟩
      simp [List.mem_append, humap]

theorem runResidual_exits (scaling : Coord) (maxd : ℚ)
    (voxNext : List Coord) :
    ∀ (n : ℕ) (st : ReassignLoopState),
      (unmatchedCoords voxNext st.nextMatched).length < n →
      (runResidual scaling maxd voxNext n st).2 = true := by
  intro n
  induction n with
  | zero => intro st h; exact absurd h (Nat.not_lt_zero _)
  | succ m ih =>
    intro st h
    cases hstep : residualStep scaling maxd voxNext st with
    | none => simp [runResidual, hstep]
    | some st' =>
      have hdec := residualStep_decreases scaling maxd voxNext st st' hstep
      simp only [runResidual, hstep]
      exact ih st' (by omega)

/-- C2: the residual-matching loop of `match_voxels` terminates.  Each
iteration either exits (the `break` on an empty match list, which also
covers the case of no remaining unmatched voxels) or strictly reduces the
number of still-unmatched next-frame voxels; consequently the loop halts
within `#unmatched + 1` iterations from any state, for every input voxel
set and parameters.  (The source has no explicit iteration cap; none is
needed for termination.) -/
theorem claim2_residual_loop_terminates :
    ∀ (scaling : Coord) (maxd : ℚ) (voxNext : List Coord)
      (st : ReassignLoopState),
      (residualStep scaling maxd voxNext st = none
        ∨ ∃ st', residualStep scaling maxd voxNext st = some st'
            ∧ (unmatchedCoords voxNext st'.nextMatched).length <
              (unmatchedCoords voxNext st.nextMatched).length)
      ∧ (runResidual scaling maxd voxNext
          ((unmatchedCoords voxNext st.nextMatched).length + 1) st).2
          = true := by
  intro scaling maxd voxNext st
  constructor
  · cases hstep : residualStep scaling maxd voxNext st with
    | none => exact Or.inl rfl
    | some st' =>
      exact Or.inr ⟨st', rfl,
        residualStep_decreases scaling maxd voxNext st st' hstep⟩
  · exact runResidual_exits scaling maxd voxNext _ st (Nat.lt_succ_self _)

theorem reachColVals_mem (cost : ℕ → ℕ → ECost) (nRows : ℕ) (th : ℚ)
    (j l : ℕ) (hl : l < nRows) (hlt : cost l j < (th : ECost)) :
    cost l j ∈ reachColVals cost nRows th j := by
  refine List.mem_map.mpr ⟨l, ?_, rfl⟩
  exact List.mem_filter.mpr ⟨List.mem_range.mpr hl, by simpa using hlt⟩

theorem reachRowVals_mem (cost : ℕ → ℕ → ECost) (nCols : ℕ) (th : ℚ)
    (i k : ℕ) (hk : k < nCols) (hlt : cost i k < (th : ECost)) :
    cost i k ∈ reachRowVals cost nCols th i := by
  refine List.mem_map.mpr ⟨k, ?_, rfl⟩
  exact List.mem_filter.mpr ⟨List.mem_range.mpr hk, by simpa using hlt⟩

theorem reachColVals_lt (cost : ℕ → ℕ → ECost) (nRows : ℕ) (th : ℚ)
    (j : ℕ) : ∀ x ∈ reachColVals cost nRows th j, x < (th : ECost) := by
  intro x hx
  obtain ⟨l, hl, rfl⟩ := List.mem_map.mp hx
  exact of_decide_eq_true (List.mem_filter.mp hl).2

theorem reachRowVals_lt (cost : ℕ → ℕ → ECost) (nCols : ℕ) (th : ℚ)
    (i : ℕ) : ∀ x ∈ reachRowVals cost nCols th i, x < (th : ECost) := by
  intro x hx
  obtain ⟨k, hk, rfl⟩ := List.mem_map.mp hx
  exact of_decide_eq_true (List.mem_filter.mp hk).2

/-- C6: every pair accepted at confidence tier 1 (by either the node pass
or the track pass of `_assign_confidence_1_matches`) is mutually best: its
cost is below the threshold and is simultaneously the minimum over all
reachable (below-threshold) candidates of its column and of its row. -/
theorem claim6_tier1_mutual_best :
    ∀ (cost : ℕ → ℕ → ECost) (nRows nCols : ℕ) (th : ℚ) (i j : ℕ),
      (conf1AcceptNode cost nRows nCols th i j = true
        ∨ conf1AcceptTrack cost nRows nCols th i j = true) →
      cost i j < (th : ECost)
      ∧ (∀ l, l < nRows → cost l j < (th : ECost) → cost i j ≤ cost l j)
      ∧ (∀ k, k < nCols → cost i k < (th : ECost) → cost i j ≤ cost i k) := by
  intro cost nRows nCols th i j hacc
  rcases hacc with hacc | hacc
  · simp only [conf1AcceptNode, Bool.and_eq_true, beq_iff_eq] at hacc
    obtain ⟨hmincol, hrowB⟩ := hacc
    rcases hrowmin : listMinE (reachRowVals cost nCols th i) with _ | m
    · rw [hrowmin] at hrowB; cases hrowB
    · rw [hrowmin] at hrowB
      have hrowle : cost i j ≤ m := of_decide_eq_true hrowB
      have hjlt : cost i j < (th : ECost) :=
        reachColVals_lt cost nRows th j _ (listMinE_mem _ _ hmincol)
      refine ⟨hjlt, ?_, ?_⟩
      · intro l hl hlt
        exact listMinE_le _ _ hmincol _ (reachColVals_mem cost nRows th j l hl hlt)
      · intro k hk hlt
        exact le_trans hrowle
          (listMinE_le _ _ hrowmin _ (reachRowVals_mem cost nCols th i k hk hlt))
  · simp only [conf1AcceptTrack, Bool.and_eq_true, beq_iff_eq] at hacc
    obtain ⟨hminrow, hcolB⟩ := hacc
    rcases hcolmin : listMinE (reachColVals cost nRows th j) with _ | m
    · rw [hcolmin] at hcolB; cases hcolB
    · rw [hcolmin] at hcolB
      have hcolle : cost i j ≤ m := of_decide_eq_true hcolB
      have hjlt : cost i j < (th : ECost) :=
        reachRowVals_lt cost nCols th i _ (listMinE_mem _ _ hminrow)
      refine ⟨hjlt, ?_, ?_⟩
      · intro l hl hlt
        exact le_trans hcolle
          (listMinE_le _ _ hcolmin _ (reachColVals_mem cost nRows th j l hl hlt))
      · intro k hk hlt
        exact listMinE_le _ _ hminrow _ (reachRowVals_mem cost nCols th i k hk hlt)

/-- Witness for C6 at a concrete cost matrix: in `[[1, 5], [5, 2]]` with
threshold 3 the pair `(0, 0)` passes the node-pass tier-1 condition, and
the theorem yields that its cost is reachable. -/
theorem claim6_tier1_mutual_best_witness :
    conf1AcceptNode
      (fun l k => (([[(1 : ECost), (5 : ECost)], [(5 : ECost), (2 : ECost)]]
        ).getD l []).getD k ⊤) 2 2 3 0 0 = true
    ∧ (fun l k => (([[(1 : ECost), (5 : ECost)], [(5 : ECost), (2 : ECost)]]
        ).getD l []).getD k ⊤) 0 0 < ((3 : ℚ) : ECost) :=
  ⟨by decide,
    (claim6_tier1_mutual_best
      (fun l k => (([[(1 : ECost), (5 : ECost)], [(5 : ECost), (2 : ECost)]]
        ).getD l []).getD k ⊤) 2 2 3 0 0 (Or.inl (by decide))).1⟩

theorem filter_range_split (n j : ℕ) (P : ℕ → Prop) [DecidablePred P]
    (hj : j < n) :
    ((List.range n).filter (fun k => decide (P k))).length =
      ((List.range n).filter (fun k => decide (k ≠ j ∧ P k))).length +
      (if P j then 1 else 0) := by
  induction n with
  | zero => exact absurd hj (Nat.not_lt_zero _)
  | succ m ih =>
    rw [List.range_succ, List.filter_append, List.filter_append,
      List.length_append, List.length_append]
    by_cases hjm : j < m
    · rw [ih hjm]
      have hmj : m ≠ j := by omega
      by_cases hPm : P m
      · simp [hPm, hmj]
        omega
      · simp [hPm, hmj]
    · have hjm' : j = m := by omega
      subst hjm'
      have hcongr : (List.range j).filter (fun k => decide (P k)) =
          (List.range j).filter (fun k => decide (k ≠ j ∧ P k)) := by
        refine List.filter_congr ?_
        intro k hk
        have hkj : k ≠ j := Nat.ne_of_lt (List.mem_range.mp hk)
        simp [hkj]
      rw [hcongr]
      by_cases hPj : P j
      · simp [hPj]
      · simp [hPj]

/-- C7 amended: a pair is accepted by `_assign_confidence_2_matches` iff
the below-threshold entries of its column and of its row number exactly
two in total, the assignment itself counted once per side it is reachable
in; equivalently, iff either the assignment is reachable and *no* other
reachable candidate exists in its row or column, or the assignment is
unreachable and exactly two other reachable candidates exist there. -/
theorem claim7_tier2_count_characterization :
    ∀ (cost : ℕ → ℕ → ECost) (nRows nCols : ℕ) (th : ℚ) (i j : ℕ),
      i < nRows → j < nCols →
      (conf2Accept cost nRows nCols th i j = true ↔
        ((cost i j < (th : ECost))
            ∧ conf2OtherReach cost nRows nCols th i j = 0)
        ∨ (¬(cost i j < (th : ECost))
            ∧ conf2OtherReach cost nRows nCols th i j = 2)) := by
  intro cost nRows nCols th i j hi hj
  have hcol := filter_range_split nRows i (fun l => cost l j < (th : ECost)) hi
  have hrow := filter_range_split nCols j (fun k => cost i k < (th : ECost)) hj
  simp only [conf2Accept, conf2OtherReach, reachColVals, reachRowVals,
    List.length_map, beq_iff_eq]
  rw [hcol, hrow]
  by_cases hr : cost i j < (th : ECost)
  · simp only [hr, if_pos, not_true, false_and, or_false, true_and]
    omega
  · simp only [hr, if_neg, not_false_iff, false_and, false_or, true_and,
      if_false]
    omega

/-- Witness for the amended C7 statement at the counterexample matrix. -/
theorem claim7_tier2_count_characterization_witness :
    (0 : ℕ) < 2 ∧
    (conf2Accept
      (fun l k => (([[(1 : ECost), ((3 / 2 : ℚ) : ECost)],
        [(5 : ECost), (5 : ECost)]]).getD l []).getD k ⊤) 2 2 2 0 0 = true ↔
      (((fun l k => (([[(1 : ECost), ((3 / 2 : ℚ) : ECost)],
          [(5 : ECost), (5 : ECost)]]).getD l []).getD k ⊤) 0 0
            < ((2 : ℚ) : ECost))
          ∧ conf2OtherReach
            (fun l k => (([[(1 : ECost), ((3 / 2 : ℚ) : ECost)],
              [(5 : ECost), (5 : ECost)]]).getD l []).getD k ⊤) 2 2 2 0 0 = 0)
      ∨ (¬((fun l k => (([[(1 : ECost), ((3 / 2 : ℚ) : ECost)],
            [(5 : ECost), (5 : ECost)]]).getD l []).getD k ⊤) 0 0
              < ((2 : ℚ) : ECost))
          ∧ conf2OtherReach
            (fun l k => (([[(1 : ECost), ((3 / 2 : ℚ) : ECost)],
              [(5 : ECost), (5 : ECost)]]).getD l []).getD k ⊤) 2 2 2 0 0
              = 2)) :=
  ⟨by decide,
    claim7_tier2_count_characterization
      (fun l k => (([[(1 : ECost), ((3 / 2 : ℚ) : ECost)],
        [(5 : ECost), (5 : ECost)]]).getD l []).getD k ⊤) 2 2 2 0 0
      (by decide) (by decide)⟩

theorem applyTrackOp_preserves_empty (tr : NodeTrackState) (op : TrackOp)
    (h : tr.possibleMergesTo = []) :
    (applyTrackOp tr op).possibleMergesTo = [] := by
  cases op with
  | mergedTo n f c =>
    simp only [applyTrackOp, possiblyMergedTo, h, dictKeys]
    simp
  | emergedFrom t f c =>
    simp only [applyTrackOp, possiblyEmergedFrom]
    split <;> simpa using h

/-- C10 amended: for every sequence of merge/emerge bookkeeping
operations, `possible_merges_to` remains empty forever — no operation ever
inserts a key there — and a merge record for a frame not present as a key
is *stored as a fresh singleton list* in `possible_emerges_from`
(overwriting any records already held for that frame), rather than being
appended. -/
theorem claim10_merges_to_stays_empty :
    (∀ ops : List TrackOp,
      (ops.foldl applyTrackOp initNodeTrack).possibleMergesTo = [])
    ∧ (∀ (tr : NodeTrackState) (n f : ℕ) (c : ℚ),
        tr.possibleMergesTo = [] →
        possiblyMergedTo tr n f c =
          { tr with possibleEmergesFrom :=
              dictSet f [(n, c)] tr.possibleEmergesFrom }) := by
  constructor
  · intro ops
    suffices h : ∀ (tr : NodeTrackState), tr.possibleMergesTo = [] →
        (ops.foldl applyTrackOp tr).possibleMergesTo = [] from
      h initNodeTrack rfl
    induction ops with
    | nil => intro tr h; exact h
    | cons op rest ih =>
      intro tr h
      exact ih (applyTrackOp tr op) (applyTrackOp_preserves_empty tr op h)
  · intro tr n f c h
    simp only [possiblyMergedTo, h, dictKeys]
    simp

/-- Witness for the amended C10 statement. -/
theorem claim10_merges_to_stays_empty_witness :
    ([TrackOp.mergedTo 1 4 (1 / 2), TrackOp.emergedFrom 2 5 (3 / 4)].foldl
      applyTrackOp initNodeTrack).possibleMergesTo = []
    ∧ possiblyMergedTo initNodeTrack 1 4 (1 / 2) =
        { initNodeTrack with possibleEmergesFrom := dictSet 4 [(1, 1 / 2)] [] } :=
  ⟨claim10_merges_to_stays_empty.1 [TrackOp.mergedTo 1 4 (1 / 2),
      TrackOp.emergedFrom 2 5 (3 / 4)],
    claim10_merges_to_stays_empty.2 initNodeTrack 1 4 (1 / 2) rfl⟩

theorem dictGet_groupInsert (g : List (Coord × List (ℚ × Coord)))
    (k k' : Coord) (e : ℚ × Coord) :
    dictGet k (groupInsert k' e g) =
      if k = k' then dictGet k g ++ [e] else dictGet k g := by
  induction g with
  | nil =>
    by_cases h : k = k'
    · simp [groupInsert, dictGet, h]
    · have h' : ¬ k' = k := fun hk => h hk.symm
      simp [groupInsert, dictGet, h, h']
  | cons hd t ih =>
    obtain ⟨k₀, es₀⟩ := hd
    by_cases h1 : k₀ = k'
    · by_cases h2 : k₀ = k
      · have hk : k = k' := h2.symm.trans h1
        simp [groupInsert, dictGet, h1, h2, hk]
      · have hk : ¬ k = k' := fun hkk => h2 (h1.trans hkk.symm)
        have hk' : ¬ k' = k := fun hkk => hk hkk.symm
        simp [groupInsert, dictGet, h1, h2, hk, hk']
    · by_cases h2 : k₀ = k
      · have hk : ¬ k = k' := fun hkk => h1 (h2.trans hkk)
        simp [groupInsert, dictGet, h1, h2, hk]
      · simp [groupInsert, dictGet, h1, h2, ih]

theorem buildMatchDict_get_general :
    ∀ (input : List (Coord × ℚ × Coord))
      (g : List (Coord × List (ℚ × Coord))) (k : Coord),
      dictGet k (input.foldl (fun g e => groupInsert e.1 (e.2.1, e.2.2) g) g) =
        dictGet k g ++
          (input.filter (fun e => decide (e.1 = k))).map
            (fun e => (e.2.1, e.2.2)) := by
  intro input
  induction input with
  | nil => intro g k; simp
  | cons a t ih =>
    intro g k
    rw [List.foldl_cons, ih, dictGet_groupInsert]
    by_cases h : a.1 = k
    · simp [List.filter_cons, h, eq_comm]
    · have h' : ¬ k = a.1 := fun hk => h hk.symm
      simp [List.filter_cons, h, h']

theorem buildMatchDict_get (input : List (Coord × ℚ × Coord)) (k : Coord) :
    dictGet k (buildMatchDict input) =
      (input.filter (fun e => decide (e.1 = k))).map (fun e => (e.2.1, e.2.2))
    := by
  rw [buildMatchDict, buildMatchDict_get_general input [] k]
  simp [dictGet]

theorem groupInsert_keys (g : List (Coord × List (ℚ × Coord))) (k : Coord)
    (e : ℚ × Coord) :
    (groupInsert k e g).map (·.1) =
      if k ∈ g.map (·.1) then g.map (·.1) else g.map (·.1) ++ [k] := by
  induction g with
  | nil => simp [groupInsert]
  | cons hd t ih =>
    obtain ⟨k₀, es₀⟩ := hd
    by_cases h : k₀ = k
    · simp [groupInsert, h]
    · have h' : ¬ k = k₀ := fun hk => h hk.symm
      by_cases hmem : k ∈ t.map (·.1)
      · simp [groupInsert, h, hmem, ih, h']
      · simp [groupInsert, h, hmem, ih, h']

theorem buildMatchDict_keys_nodup (input : List (Coord × ℚ × Coord)) :
    ((buildMatchDict input).map (·.1)).Nodup := by
  rw [buildMatchDict]
  suffices h : ∀ (g : List (Coord × List (ℚ × Coord))), (g.map (·.1)).Nodup →
      ((input.foldl (fun g e => groupInsert e.1 (e.2.1, e.2.2) g) g).map
        (·.1)).Nodup from h [] (by simp)
  induction input with
  | nil => intro g hg; simpa using hg
  | cons a t ih =>
    intro g hg
    rw [List.foldl_cons]
    refine ih _ ?_
    rw [groupInsert_keys]
    by_cases hmem : a.1 ∈ g.map (·.1)
    · simpa [hmem] using hg
    · simp only [hmem, if_neg, ite_false]
      rw [List.nodup_append]
      exact ⟨hg, List.nodup_singleton _, by
        intro x hx
        simp only [List.mem_singleton]
        intro hxk
        exact hmem (hxk ▸ hx)⟩

theorem buildMatchDict_key_has_entry :
    ∀ (input : List (Coord × ℚ × Coord)) (k : Coord),
      k ∈ (buildMatchDict input).map (·.1) → ∃ e ∈ input, e.1 = k := by
  intro input
  rw [buildMatchDict]
  suffices h : ∀ (g : List (Coord × List (ℚ × Coord))) (k : Coord),
      k ∈ ((input.foldl (fun g e => groupInsert e.1 (e.2.1, e.2.2) g) g).map
        (·.1)) → k ∈ g.map (·.1) ∨ ∃ e ∈ input, e.1 = k by
    intro k hk
    rcases h [] k hk with h' | h'
    · simp at h'
    · exact h'
  induction input with
  | nil => intro g k hk; exact Or.inl (by simpa using hk)
  | cons a t ih =>
    intro g k hk
    rw [List.foldl_cons] at hk
    rcases ih _ k hk with h' | h'
    · rw [groupInsert_keys] at h'
      by_cases hmem : a.1 ∈ g.map (·.1)
      · rw [if_pos hmem] at h'
        exact Or.inl h'
      · rw [if_neg hmem] at h'
        rcases List.mem_append.mp h' with h'' | h''
        · exact Or.inl h''
        · exact Or.inr ⟨a, by simp, (List.mem_singleton.mp h'').symm⟩
    · obtain ⟨e, he, hek⟩ := h'
      exact Or.inr ⟨e, List.mem_cons_of_mem _ he, hek⟩

theorem dict_mem_get :
    ∀ (g : List (Coord × List (ℚ × Coord))) (k : Coord)
      (es : List (ℚ × Coord)),
      (g.map (·.1)).Nodup → (k, es) ∈ g → dictGet k g = es := by
  intro g
  induction g with
  | nil => intro k es _ hmem; cases hmem
  | cons hd t ih =>
    intro k es hnd hmem
    obtain ⟨k₀, es₀⟩ := hd
    rw [List.map_cons, List.nodup_cons] at hnd
    rcases List.mem_cons.mp hmem with heq | hmem'
    · injection heq with hk hes
      simp [dictGet, hk.symm, hes.symm]
    · have hkmem : k ∈ t.map (·.1) := List.mem_map.mpr ⟨(k, es), hmem', rfl⟩
      have hne : ¬ k₀ = k := fun h => hnd.1 (h ▸ hkmem)
      simp only [dictGet, hne, if_neg, ite_false]
      exact ih k es hnd.2 hmem'

theorem argminIdx_spec :
    ∀ (l : List ℚ), l ≠ [] →
      ∃ i, argminIdx l = some i ∧ i < l.length ∧ ∀ x ∈ l, l.getD i 0 ≤ x := by
  intro l
  induction l with
  | nil => intro h; exact absurd rfl h
  | cons x xs ih =>
    intro _
    cases xs with
    | nil =>
      refine ⟨0, by simp [argminIdx], by simp, ?_⟩
      intro y hy
      rcases List.mem_cons.mp hy with rfl | hy'
      · simp
      · cases hy'
    | cons b t =>
      obtain ⟨j, hj, hlen, hmin⟩ := ih (by simp)
      have hgd : (x :: b :: t).getD (j + 1) x = (b :: t).getD j 0 := by
        simp only [List.getD_cons_succ]
        rw [List.getD_eq_getElem _ _ hlen, List.getD_eq_getElem _ _ hlen]
      have harg : argminIdx (x :: b :: t) =
          if x ≤ (x :: b :: t).getD (j + 1) x then some 0 else some (j + 1) := by
        rw [argminIdx.eq_def]
        simp only [hj]
      rw [hgd] at harg
      by_cases hx : x ≤ (b :: t).getD j 0
      · refine ⟨0, ?_, by simp, ?_⟩
        · rw [harg, if_pos hx]
        · intro y hy
          rcases List.mem_cons.mp hy with rfl | hy'
          · simp
          · simpa using le_trans hx (hmin y hy')
      · refine ⟨j + 1, ?_, by simpa using Nat.succ_lt_succ hlen, ?_⟩
        · rw [harg, if_neg hx]
        · intro y hy
          have hgd' : (x :: b :: t).getD (j + 1) 0 = (b :: t).getD j 0 := by
            simp [List.getD_cons_succ]
          rw [hgd']
          rcases List.mem_cons.mp hy with rfl | hy'
          · exact le_of_lt (lt_of_not_le hx)
          · exact hmin y hy'

theorem assignChoice_spec (es : List (ℚ × Coord)) (hne : es ≠ []) :
    ∃ ce ∈ es,
      (if es.length = 1 then (es.headD (0, (0, 0, 0))).2
        else
          match argminIdx (es.map (·.1)) with
          | some i => (es.getD i (0, (0, 0, 0))).2
          | none => ((0 : ℚ), (0 : ℚ), (0 : ℚ))) = ce.2
      ∧ ∀ y ∈ es, ce.1 ≤ y.1 := by
  by_cases hlen : es.length = 1
  · obtain ⟨en, rfl⟩ := List.length_eq_one.mp hlen
    exact ⟨en, by simp, by simp, by simp⟩
  · have hmapne : es.map (·.1) ≠ [] := by
      simpa using hne
    obtain ⟨i, hi, hilen, hmin⟩ := argminIdx_spec (es.map (·.1)) hmapne
    rw [List.length_map] at hilen
    refine ⟨es.getD i (0, (0, 0, 0)), ?_, ?_, ?_⟩
    · rw [List.getD_eq_getElem _ _ hilen]
      exact List.getElem_mem _
    · simp only [hlen, if_neg, ite_false, hi]
    · intro y hy
      have h1 : (es.map (·.1)).getD i 0 = (es.getD i (0, (0, 0, 0))).1 := by
        rw [List.getD_eq_getElem _ _ (by simpa using hilen),
          List.getD_eq_getElem _ _ hilen]
        simp
      rw [← h1]
      exact hmin _ (List.mem_map.mpr ⟨y, hy, rfl⟩)

/-- C3 amended: collision resolution in `_assign_unique_matches` keeps,
for every distinct next-frame voxel, exactly one pairing — one of minimum
distance — and each distinct next voxel appears exactly once in the
output; displaced prev voxels are simply dropped (they do not appear in
the output, and the residual unmatched pool of `match_voxels` tracks only
next-frame voxels, so they are not returned to any pool). -/
theorem claim3_collision_keeps_min :
    ∀ input : List (Coord × ℚ × Coord),
      ((assignUniqueMatches input).2).Nodup
      ∧ ∀ pr ∈ List.zip (assignUniqueMatches input).1
          (assignUniqueMatches input).2,
          ∃ d, (pr.2, (d, pr.1)) ∈ input
            ∧ ∀ e ∈ input, e.1 = pr.2 → d ≤ e.2.1 := by
  intro input
  have hkeys := buildMatchDict_keys_nodup input
  constructor
  · simpa [assignUniqueMatches] using hkeys
  · intro pr hpr
    simp only [assignUniqueMatches] at hpr
    rw [List.zip_map'] at hpr
    obtain ⟨gp, hg, hpr'⟩ := List.mem_map.mp hpr
    have hget : dictGet gp.1 (buildMatchDict input) = gp.2 :=
      dict_mem_get _ gp.1 gp.2 hkeys (by simpa using hg)
    have hchar : gp.2 = (input.filter (fun e => decide (e.1 = gp.1))).map
        (fun e => (e.2.1, e.2.2)) := by
      rw [← hget, buildMatchDict_get]
    have hne : gp.2 ≠ [] := by
      intro hnil
      obtain ⟨e, he, hek⟩ := buildMatchDict_key_has_entry input gp.1
        (List.mem_map.mpr ⟨gp, hg, rfl⟩)
      have hmem : (e.2.1, e.2.2) ∈ gp.2 := by
        rw [hchar]
        exact List.mem_map.mpr ⟨e,
          List.mem_filter.mpr ⟨he, by simpa using hek⟩, rfl⟩
      rw [hnil] at hmem
      cases hmem
    obtain ⟨ce, hce, hchoice, hmin⟩ := assignChoice_spec gp.2 hne
    refine ⟨ce.1, ?_, ?_⟩
    · have hce' := hchar ▸ hce
      obtain ⟨e, hef, hee⟩ := List.mem_map.mp hce'
      have he1 : e.1 = gp.1 := by
        simpa using (List.mem_filter.mp hef).2
      have hein : e ∈ input := (List.mem_filter.mp hef).1
      have hpr2 : pr.2 = gp.1 := by rw [← hpr']
      have hpr1 : pr.1 = ce.2 := by rw [← hpr', ← hchoice]
      rw [hpr2, hpr1, ← he1, ← hee]
      simpa using hein
    · intro e hein hek
      have hpr2 : pr.2 = gp.1 := by rw [← hpr']
      have : (e.2.1, e.2.2) ∈ gp.2 := by
        rw [hchar]
        exact List.mem_map.mpr ⟨e, List.mem_filter.mpr ⟨hein, by
          simpa using hpr2 ▸ hek⟩, rfl⟩
      simpa using hmin _ this

/-- Witness for the amended C3 statement at a concrete collision. -/
theorem claim3_collision_keeps_min_witness :
    ((assignUniqueMatches [((5, 5, 5), 1, (0, 0, 0)),
        ((5, 5, 5), 2, (0, 0, 1))]).2).Nodup
    ∧ ∃ d, (((5 : ℚ), (5 : ℚ), (5 : ℚ)), (d, ((0 : ℚ), (0 : ℚ), (0 : ℚ))))
          ∈ [(((5 : ℚ), (5 : ℚ), (5 : ℚ)), (1 : ℚ), ((0 : ℚ), (0 : ℚ), (0 : ℚ))),
             (((5 : ℚ), (5 : ℚ), (5 : ℚ)), (2 : ℚ), ((0 : ℚ), (0 : ℚ), (1 : ℚ)))]
        ∧ ∀ e ∈ [(((5 : ℚ), (5 : ℚ), (5 : ℚ)), (1 : ℚ),
              ((0 : ℚ), (0 : ℚ), (0 : ℚ))),
             (((5 : ℚ), (5 : ℚ), (5 : ℚ)), (2 : ℚ), ((0 : ℚ), (0 : ℚ), (1 : ℚ)))],
            e.1 = ((5 : ℚ), (5 : ℚ), (5 : ℚ)) → d ≤ e.2.1 :=
  ⟨(claim3_collision_keeps_min [((5, 5, 5), 1, (0, 0, 0)),
      ((5, 5, 5), 2, (0, 0, 1))]).1,
    (claim3_collision_keeps_min [((5, 5, 5), 1, (0, 0, 0)),
      ((5, 5, 5), 2, (0, 0, 1))]).2 (((0, 0, 0)), ((5, 5, 5))) (by decide)⟩

/-- C3 counterexample to the "returned to the unmatched pool" part: two
prev voxels collide on next voxel `(5,5,5)` with distances 1 and 2; the
output keeps only the distance-1 pairing, and the unmatched pool (the
next-frame voxels not yet matched) is empty — the displaced prev voxel
`(0,0,1)` appears in neither. -/
theorem claim3_displaced_prev_not_pooled :
    assignUniqueMatches [((5, 5, 5), 1, (0, 0, 0)), ((5, 5, 5), 2, (0, 0, 1))]
      = ([(0, 0, 0)], [(5, 5, 5)])
    ∧ unmatchedCoords [(5, 5, 5)] [(5, 5, 5)] = []
    ∧ ((0 : ℚ), (0 : ℚ), (1 : ℚ)) ∉
        (assignUniqueMatches [((5, 5, 5), 1, (0, 0, 0)),
          ((5, 5, 5), 2, (0, 0, 1))]).1 := by
  refine ⟨by decide, by decide, by decide⟩

/-- C8 amended: the code's interpolation weights are the shift-normalized
products of the *negated* assignment costs with the distance factors
(`1/d`, degraded to the indicator of `d = 0` whenever some distance is
exactly zero); after the shift every weight is positive and they sum to
one, and the returned displacement is the weighted sum of the neighbour
displacement vectors. -/
theorem claim8_weights_normalized :
    ∀ (costs dists : List ℚ), dists ≠ [] → costs.length = dists.length →
      listSum (getVectorWeights costs dists) = 1
      ∧ ∀ w ∈ getVectorWeights costs dists, 0 < w := by
  intro costs dists hne hlen
  simp only [getVectorWeights]
  set dwl := (if listMin dists = 0 then
      dists.map (fun d => if d = 0 then (1 : ℚ) else 0)
    else dists.map (fun d => 1 / d)) with hdwl
  set weights := List.zipWith (· * ·) (costs.map (fun c => -c)) dwl
    with hweights
  set shifted := weights.map (fun w => w - (listMin weights - 1))
    with hshifted
  have hdwlen : dwl.length = dists.length := by
    rw [hdwl]; split <;> simp
  have hwlen : weights.length = dists.length := by
    rw [hweights, List.length_zipWith, List.length_map, hlen, hdwlen]
    exact min_self _
  have hslen : shifted.length = dists.length := by
    rw [hshifted, List.length_map, hwlen]
  have hge1 : ∀ x ∈ shifted, (1 : ℚ) ≤ x := by
    intro x hx
    rw [hshifted] at hx
    obtain ⟨w, hw, rfl⟩ := List.mem_map.mp hx
    have := listMin_le_mem weights w hw
    linarith
  have hlenpos : 1 ≤ shifted.length := by
    rw [hslen]
    exact List.length_pos.mpr hne
  have hSpos : 0 < listSum shifted := by
    have h1 := listSum_ge_length shifted hge1
    have h2 : (1 : ℚ) ≤ (shifted.length : ℚ) := by exact_mod_cast hlenpos
    linarith
  constructor
  · rw [listSum_map_div]
    exact div_self (ne_of_gt hSpos)
  · intro w hw
    obtain ⟨x, hx, rfl⟩ := List.mem_map.mp hw
    have h1 := hge1 x hx
    exact div_pos (by linarith) hSpos

/-- Witness for the amended C8 statement at the counterexample inputs. -/
theorem claim8_weights_normalized_witness :
    ([(0 : ℚ), 1] ≠ ([] : List ℚ))
    ∧ ([(5 : ℚ), 5].length = [(0 : ℚ), 1].length)
    ∧ listSum (getVectorWeights [5, 5] [0, 1]) = 1 :=
  ⟨by decide, by decide,
    (claim8_weights_normalized [5, 5] [0, 1] (by decide) (by decide)).1⟩

theorem scaledDistSq_self (s a : Coord) : scaledDistSq s a a = 0 := by
  simp [scaledDistSq, Coord.sub, Coord.scale]

theorem ratSqrt_zero : ratSqrt 0 = 0 := by decide

theorem getVectorWeights_single (c : ℚ) : getVectorWeights [c] [0] = [1] := by
  simp only [getVectorWeights, listMin, listSum, List.map_cons, List.map_nil,
    List.zipWith_cons_cons, List.zipWith_nil_right, List.foldr_cons,
    List.foldr_nil]
  norm_num

theorem getFinalVector_single (v : Coord) : getFinalVector [v] [1] = v := by
  simp [getFinalVector, Coord.smul, Coord.add]

/-- C4: interpolation locality.  (a) For a flow table holding a single
record, a forward query at the record's frame and exact origin coordinate
returns exactly its displacement vector (for any nonnegative interpolation
radius).  (b) For any table, direction and query point whose scaled
distance to every candidate anchor exceeds the radius, the query returns
`none` — "no displacement available" — rather than failing. -/
theorem claim4_interp_locality :
    (∀ (r : FlowRecord) (maxd : ℚ) (sc : Coord), 0 ≤ maxd →
      (interpolateCoord (initInterp true maxd sc [r]) r.origin r.t).2 =
        some r.vec)
    ∧ (∀ (fw : Bool) (arr : List FlowRecord) (maxd : ℚ) (sc coord : Coord)
        (t : ℚ),
        (∀ c ∈ (if fw then
              (arr.filter (fun r => decide (r.t = t))).map (·.origin)
            else
              (arr.filter (fun r => decide (r.t = t - 1))).map
                (fun r => Coord.add r.origin r.vec)),
          maxd * maxd < scaledDistSq sc c coord) →
        (interpolateCoord (initInterp fw maxd sc arr) coord t).2 = none) := by
  constructor
  · intro r maxd sc h0
    simp [interpolateCoord, initInterp, getNearbyCoords, scaledDistSq_self,
      ratSqrt_zero, h0, mul_self_nonneg, sortAsc, insertAsc]
    have h1 : List.range 1 = [0] := by decide
    rw [h1]
    simp [getVectorWeights_single, getFinalVector_single]
  · intro fw arr maxd sc coord t hfar
    cases fw with
    | true =>
      simp only [if_true] at hfar
      simp [interpolateCoord, initInterp, getNearbyCoords]
      have hcond : ∀ a < (arr.filter (fun r => decide (r.t = t))).length,
          0 ≤ maxd → maxd * maxd < scaledDistSq sc
            ((Option.map (fun x => x.origin)
              (arr.filter (fun r => decide (r.t = t)))[a]?).getD coord)
            coord := by
        intro a ha h0m
        rw [List.getElem?_eq_getElem ha]
        simp only [Option.map_some', Option.getD_some]
        exact hfar _ (List.mem_map.mpr ⟨_, List.getElem_mem _, rfl⟩)
      rw [if_pos hcond]
    | false =>
      simp only [if_false, Bool.false_eq_true] at hfar
      simp [interpolateCoord, initInterp, getNearbyCoords]
      have hcond : ∀ a < (arr.filter (fun r => decide (r.t = t - 1))).length,
          0 ≤ maxd → maxd * maxd < scaledDistSq sc
            ((Option.map (fun x => Coord.add x.origin x.vec)
              (arr.filter (fun r => decide (r.t = t - 1)))[a]?).getD coord)
            coord := by
        intro a ha h0m
        rw [List.getElem?_eq_getElem ha]
        simp only [Option.map_some', Option.getD_some]
        exact hfar _ (List.mem_map.mpr ⟨_, List.getElem_mem _, rfl⟩)
      rw [if_pos hcond]

/-- Witness for C4 at concrete inputs: a single record at frame 7 anchored
at `(3,4,5)` with vector `(9,8,7)` queried at its anchor; and the far
query of the C1 scenario, which returns `none`. -/
theorem claim4_interp_locality_witness :
    (interpolateCoord (initInterp true (1 / 2) (2, 1, 1)
        [{ t := 7, origin := (3, 4, 5), vec := (9, 8, 7), cost := 11 }])
      (3, 4, 5) 7).2 = some (9, 8, 7)
    ∧ (interpolateCoord (initInterp true 1 (1, 1, 1)
        [{ t := 5, origin := (0, 0, 0), vec := (1, 0, 0), cost := 1 }])
      (10, 10, 10) 5).2 = none :=
  ⟨claim4_interp_locality.1
      { t := 7, origin := (3, 4, 5), vec := (9, 8, 7), cost := 11 }
      (1 / 2) (2, 1, 1) (by norm_num),
    claim4_interp_locality.2 true
      [{ t := 5, origin := (0, 0, 0), vec := (1, 0, 0), cost := 1 }]
      1 (1, 1, 1) (10, 10, 10) 5 (by decide)⟩

end Nellie
